import Mathlib

/-!
# Verification of the betting-exchange order-book (ladder) builder

A shallow embedding of the streaming ladder builder: the code of
`src/exchange/orderbook.py` (`LadderBuilder`) and `src/exchange/metadata.py`
(`MetadataBuilder`) translated to Lean, followed by theorems settling the
behavioural claims about it.

Modelling conventions:
* Prices, sizes, and volumes are `ℚ` (the source uses Python floats; all
  inputs here are short decimals, modelled exactly).
* A Python dict from price to size is an association list `List (ℚ × ℚ)`;
  the stored ladders are rebuilt sorted by the source on every update, so
  list order mirrors dict iteration order.
* Python `float("inf")` (the default best lay price) is `Option ℚ` with
  `none` standing for plus infinity.
* A Python operation that can raise (`KeyError`, `IndexError`,
  `AssertionError`, `ValueError`) returns `Option`/`Except`, with `none` /
  `.error` marking the raise.
* `pd.to_datetime(pt, unit=ms)` is wrapped in `PdTimestamp`, keeping the
  millisecond value; timestamp subtraction in the source
  (`.total_seconds() * 1000`) is exact integer subtraction of milliseconds.
-/

-- Restore kernel reducibility of the core rational operations so that the
-- concrete evaluations below go through `decide`.
attribute [local semireducible] Rat.mul Rat.add Rat.sub Rat.inv

/-- A price-to-size mapping (a Python dict keyed by price). -/
abbrev Ladder := List (ℚ × ℚ)

/-- Side tag of a derived trade: back hit, lay hit, or unclassified. -/
inductive TradeSide where
  | b
  | l
  | nan
deriving DecidableEq, Repr

/-- One derived trade `[price, delta, side]`. -/
structure Trade where
  price : ℚ
  delta : ℚ
  side : TradeSide
deriving DecidableEq, Repr

/-- Per-runner book state, the sub-dictionary built by
`LadderBuilder.create_ladder_ds`.  `blp = none` models the source's
`float("inf")` default. -/
structure RunnerBook where
  atb : Ladder
  atl : Ladder
  trd : Ladder
  trades : List Trade
  ltp : Option ℚ
  tv : Option ℚ
  ttrdv : ℚ
  bbp : ℚ
  blp : Option ℚ
deriving DecidableEq, Repr

/-- A runner change from a packet's `rc` list.  The ladder-update fields use
`[]` for an absent key (the source reads them with `.get(price_key, [])`);
the scalar fields use `none` for an absent key (`.get(key)`). -/
structure RunnerChange where
  id : ℕ
  atb : List (ℚ × ℚ)
  atl : List (ℚ × ℚ)
  trd : List (ℚ × ℚ)
  ltp : Option ℚ
  tv : Option ℚ
deriving DecidableEq, Repr

/-- A runner object inside a market definition
(`{id, name, status, bsp?}`). -/
structure DefRunner where
  name : String
  id : ℕ
  status : String
  bsp : Option ℚ
deriving DecidableEq, Repr

/-- The fields of a market definition the embedded code reads.  `none`
models a missing key. -/
structure MarketDefn where
  eventId : Option String
  openDate : Option String
  marketTime : Option String
  suspendTime : Option String
  runners : List DefRunner
deriving DecidableEq, Repr

/-- A market change `mc[i]` of a packet. `rc = none` models a missing `rc`
key (the source reads `market_change["rc"]` unconditionally). -/
structure MarketChange where
  id : Option String
  rc : Option (List RunnerChange)
  marketDefinition : Option MarketDefn
deriving DecidableEq, Repr

/-- One line of the input stream: `{pt, mc}` with `none` for missing keys. -/
structure Packet where
  pt : Option ℤ
  mc : Option (List MarketChange)
deriving DecidableEq, Repr

/-- Result of `pd.to_datetime(pt, unit=ms)`: a wall-clock UTC timestamp,
identified by its millisecond value. -/
structure PdTimestamp where
  millis : ℤ
deriving DecidableEq, Repr

/-- `pd.to_datetime(pt, unit=ms)`. -/
def pd_to_datetime (ms : ℤ) : PdTimestamp := ⟨ms⟩

instance {ε α : Type} [DecidableEq ε] [DecidableEq α] : DecidableEq (Except ε α) := fun a b =>
  match a, b with
  | .ok x, .ok y => decidable_of_iff (x = y) (by simp)
  | .ok _, .error _ => isFalse (by simp)
  | .error _, .ok _ => isFalse (by simp)
  | .error x, .error y => decidable_of_iff (x = y) (by simp)

/-! ## Association-list primitives (Python dict operations) -/

/-- `d[k]` lookup that returns `none` when the key is missing
(`dict.get`). -/
def assocLookup (m : Ladder) (p : ℚ) : Option ℚ :=
  (m.find? (fun e => decide (e.1 = p))).map (fun e => e.2)

/-- `d[k] = v`: replace the value at an existing key in place, else append
the new binding (Python dict assignment). -/
def assocSet (m : Ladder) (p v : ℚ) : Ladder :=
  if m.any (fun e => decide (e.1 = p)) then
    m.map (fun e => if e.1 = p then (p, v) else e)
  else
    m ++ [(p, v)]

/-- `LadderBuilder.list_ladder_to_dict`: convert a `[[price, amount], ...]`
list to a dict.  A duplicated price keeps its first position with the last
value, as in a Python dict comprehension. -/
def list_ladder_to_dict (ladder : List (ℚ × ℚ)) : Ladder :=
  ladder.foldl (fun acc e => assocSet acc e.1 e.2) []

/-- `dict1.update(dict2)`. -/
def dict_update (m upd : Ladder) : Ladder :=
  upd.foldl (fun acc e => assocSet acc e.1 e.2) m

/-! ## Ladder-side updates (`LadderBuilder.update_runner_ladder`)

Python's `sorted` is a stable sort; `List.insertionSort` is stable as well,
and the keys of a dict's item list are distinct anyway, so comparing by
price alone coincides with Python's tuple comparison. -/

/-- Descending price order, for `sorted(..., reverse=True)`. -/
def keyDesc (a b : ℚ × ℚ) : Prop := b.1 ≤ a.1

/-- Ascending price order, for `sorted(...)`. -/
def keyAsc (a b : ℚ × ℚ) : Prop := a.1 ≤ b.1

instance : DecidableRel keyDesc :=
  fun a b => inferInstanceAs (Decidable (b.1 ≤ a.1))

instance : DecidableRel keyAsc :=
  fun a b => inferInstanceAs (Decidable (a.1 ≤ b.1))

instance : IsTotal (ℚ × ℚ) keyDesc := ⟨fun a b => le_total b.1 a.1⟩

instance : IsTotal (ℚ × ℚ) keyAsc := ⟨fun a b => le_total a.1 b.1⟩

instance : IsTrans (ℚ × ℚ) keyDesc := ⟨fun _ _ _ h1 h2 => le_trans h2 h1⟩

instance : IsTrans (ℚ × ℚ) keyAsc := ⟨fun _ _ _ h1 h2 => le_trans h1 h2⟩

/-- The three ladder-side keys of a runner change. -/
inductive PriceKey where
  | atb
  | atl
  | trd
deriving DecidableEq, Repr

/-- `LadderBuilder.update_runner_ladder`: merge the update list into the
side's dict, drop entries with size `≤ 0`, then sort — `atb` descending and
capped at 10, `atl` ascending and capped at 10, `trd` ascending uncapped. -/
def update_runner_ladder (rb : RunnerBook) (rc : RunnerChange) (price_key : PriceKey) : Ladder :=
  let ladder : Ladder :=
    match price_key with
    | .atb => rb.atb
    | .atl => rb.atl
    | .trd => rb.trd
  let update_list : List (ℚ × ℚ) :=
    match price_key with
    | .atb => rc.atb
    | .atl => rc.atl
    | .trd => rc.trd
  let merged := dict_update ladder (list_ladder_to_dict update_list)
  let kept := merged.filter (fun e => decide (0 < e.2))
  match price_key with
  | .atb => (kept.insertionSort keyDesc).take 10
  | .atl => (kept.insertionSort keyAsc).take 10
  | .trd => kept.insertionSort keyAsc

/-- `LadderBuilder.update_runner_value`: `value if value else runner_ladder[key]`.
A present non-zero (truthy) value overwrites; an absent key or a falsy value
(`0`) preserves the stored value. -/
def update_runner_value (current : Option ℚ) (change : Option ℚ) : Option ℚ :=
  match change with
  | some v => if v = 0 then current else some v
  | none => current

/-! ## Trade derivation (`LadderBuilder.update_runner_trades`) -/

/-- Python `round(x, 2)` on the exact value: `⌊100 q + 1/2⌋ / 100`, via the
computable `Rat.floor`.  (Tie-breaking differs from CPython's float-based
half-to-even, but no value in this development sits on a tie.) -/
def round2 (q : ℚ) : ℚ := ((Rat.floor (100 * q + 1 / 2) : ℤ) : ℚ) / 100

/-- Side classification of a derived trade against the pre-packet best
prices: back if `price ≤ bbp`, else lay if `price ≥ blp`, else `"nan"`.
`blp = none` is plus infinity, so nothing classifies as a lay hit. -/
def classify_side (bbp : ℚ) (blp : Option ℚ) (price : ℚ) : TradeSide :=
  if price ≤ bbp then .b
  else
    match blp with
    | some b => if b ≤ price then .l else .nan
    | none => .nan

/-- `LadderBuilder.update_runner_trades`: walk the change's `trd` list,
difference each cumulative volume against the stored `trd` dict, discard
non-positive deltas, and accumulate `(trades, ttrdv)`.  Runs before the
`trd` merge, so every lookup is against the pre-packet `trd`. -/
def update_runner_trades (rb : RunnerBook) (rc : RunnerChange) : List Trade × ℚ :=
  rc.trd.foldl
    (fun acc tu =>
      let traded_price := tu.1
      let total_volume := tu.2
      let traded_volume := round2 (total_volume - (assocLookup rb.trd traded_price).getD 0)
      if traded_volume ≤ 0 then acc
      else
        (acc.1 ++ [⟨traded_price, traded_volume, classify_side rb.bbp rb.blp traded_price⟩],
         acc.2 + traded_volume))
    ([], rb.ttrdv)

/-! ## Per-packet book mutation (`LadderBuilder.update_ladder`) -/

/-- Apply one runner change to one runner's book, in source order: trades
first (against the pre-change state), then the `atb`, `atl`, `trd` merges
and the `ltp`, `tv` scalar updates.  `bbp`/`blp` are untouched here. -/
def apply_runner_change (rb : RunnerBook) (rc : RunnerChange) : RunnerBook :=
  let tr := update_runner_trades rb rc
  { rb with
    trades := tr.1
    ttrdv := tr.2
    atb := update_runner_ladder rb rc .atb
    atl := update_runner_ladder rb rc .atl
    trd := update_runner_ladder rb rc .trd
    ltp := update_runner_value rb.ltp rc.ltp
    tv := update_runner_value rb.tv rc.tv }

/-- The market book `self.current_ladder`: runner id mapped to its book. -/
abbrev Books := List (ℕ × RunnerBook)

/-- `self.current_ladder[runner_id]` as a fallible lookup. -/
def booksLookup (bs : Books) (i : ℕ) : Option RunnerBook :=
  (bs.find? (fun e => decide (e.1 = i))).map (fun e => e.2)

/-- `self.current_ladder[runner_id] = rb` (key known to exist). -/
def booksSet (bs : Books) (i : ℕ) (rb : RunnerBook) : Books :=
  bs.map (fun e => if e.1 = i then (i, rb) else e)

/-- The fresh runner book of `LadderBuilder.create_ladder_ds`: empty
ladders, no trades, `ttrdv = 0`, `bbp = 0` and `blp = float("inf")`. -/
def initRunnerBook : RunnerBook :=
  ⟨[], [], [], [], none, none, 0, 0, none⟩

/-- `LadderBuilder.create_ladder_ds`: one fresh book per roster id.  The
source builds a Python dict, so duplicated roster ids collapse to a single
key. -/
def create_ladder_ds (runner_ids : List ℕ) : Books :=
  runner_ids.dedup.map (fun i => (i, initRunnerBook))

/-- `LadderBuilder.update_ladder`: iterate the packet's runner changes.
Reading `market_change["rc"]` on a packet without `rc`, or indexing
`self.current_ladder[runner_id]` with an id outside the initial roster,
raises in the source — modelled by `none`. -/
def update_ladder (bs : Books) (market_change : MarketChange) : Option Books :=
  match market_change.rc with
  | none => none
  | some rcs =>
    rcs.foldlM
      (fun acc rc =>
        match booksLookup acc rc.id with
        | none => none
        | some rb => some (booksSet acc rc.id (apply_runner_change rb rc)))
      bs

/-! ## Snapshot formatting (`LadderBuilder.format_ladder`) -/

/-- A formatted per-runner snapshot entry.  The source omits falsy fields
from the Mongo document; an omitted list field is modelled by `[]` and an
omitted scalar by `none` (the source itself reads the formatted dict back
with `.get`, under which the two are indistinguishable).  `trd` keys are
stringified for Mongo in the source; the numeric keys are kept here, in the
same iteration order. -/
structure FormattedRunner where
  atb : List (ℚ × ℚ)
  atl : List (ℚ × ℚ)
  trd : List (ℚ × ℚ)
  ltp : Option ℚ
  tv : Option ℚ
  ttrdv : Option ℚ
  trades : List Trade
deriving DecidableEq, Repr

/-- Format one runner's book (`LadderBuilder.format_ladder`, loop body).
Scalars pass only when truthy; `ttrdv` is re-rounded on output. -/
def format_runner (rb : RunnerBook) : FormattedRunner :=
  { atb := rb.atb
    atl := rb.atl
    trd := rb.trd
    ltp := match rb.ltp with
           | some v => if v = 0 then none else some v
           | none => none
    tv := match rb.tv with
          | some v => if v = 0 then none else some v
          | none => none
    ttrdv := if rb.ttrdv = 0 then none else some (round2 rb.ttrdv)
    trades := rb.trades }

/-- `LadderBuilder.format_ladder` over the whole market book. -/
def format_ladder (bs : Books) : List (ℕ × FormattedRunner) :=
  bs.map (fun e => (e.1, format_runner e.2))

/-! ## Arbitrage scan (`check_arbitrage` / `raise_if_arbitrage`) -/

/-- `LadderBuilder.check_arbitrage` on a formatted runner entry: read the
best back price from `atb[0][0]` (default `0` when the `atb` key is absent)
and the best lay price from `atl[0][0]` (default `float("inf")`), and flag
`best_back_price > best_lay_price`.  Returns `(bbp, blp, flag)`; the caller
stores `bbp`/`blp` back into the current ladder. -/
def check_arbitrage (fr : FormattedRunner) : ℚ × Option ℚ × Bool :=
  let best_back_price : ℚ :=
    match fr.atb.head? with
    | some e => e.1
    | none => 0
  let best_lay_price : Option ℚ := fr.atl.head?.map (fun e => e.1)
  let crossed : Bool :=
    match best_lay_price with
    | some b => decide (b < best_back_price)
    | none => false
  (best_back_price, best_lay_price, crossed)

/-- `LadderBuilder.raise_if_arbitrage`: run `check_arbitrage` on every
runner of the snapshot, writing the recomputed `bbp`/`blp` into the current
ladder.  The source's raise is commented out (the body is `pass`), so the
function is total: no exception path exists regardless of the flag. -/
def raise_if_arbitrage (bs : Books) (runner_ladders : List (ℕ × FormattedRunner)) : Books :=
  runner_ladders.foldl
    (fun acc e =>
      let c := check_arbitrage e.2
      acc.map (fun b => if b.1 = e.1 then (b.1, { b.2 with bbp := c.1, blp := c.2.1 }) else b))
    bs

/-- `LadderBuilder.reset_runner_trades`: clear every runner's trade list at
the end of the packet cycle. -/
def reset_runner_trades (bs : Books) : Books :=
  bs.map (fun e => (e.1, { e.2 with trades := [] }))

/-- One iteration of `LadderBuilder.run` restricted to the market book:
apply the runner changes, format the snapshot, rescan for arbitrage
(recomputing `bbp`/`blp`), and clear the trade lists. -/
def step_books (bs : Books) (market_change : MarketChange) : Option Books :=
  (update_ladder bs market_change).map
    (fun bs2 => reset_runner_trades (raise_if_arbitrage bs2 (format_ladder bs2)))

/-- The market-book part of `LadderBuilder.run` over a packet stream. -/
def run_books (bs : Books) (mcs : List MarketChange) : Option Books :=
  mcs.foldlM step_books bs

/-! ## Packet decoding (`LadderBuilder.process_packet`) -/

/-- `LadderBuilder.process_packet`: read `pt` and `mc` (raising `KeyError`
on a missing key), take `mc[0]` (raising `IndexError` on an empty list),
convert `pt`, and assert `len(mc) == 1`. -/
def process_packet (packet : Packet) : Except String (PdTimestamp × MarketChange) :=
  match packet.pt with
  | none => .error "KeyError: pt"
  | some pt =>
    match packet.mc with
    | none => .error "KeyError: mc"
    | some mc =>
      match mc.head? with
      | none => .error "IndexError: mc[0]"
      | some market_change =>
        if mc.length = 1 then .ok (pd_to_datetime pt, market_change)
        else .error "AssertionError: len(mc) != 1"

/-! ## Pre-in-play ladder capture (`MetadataBuilder.extend_pre_market`) -/

/-- The pre-in-play capture state: the three optional metadata fields.  The
value captured by each field is the deep copy of the snapshot's `runners`
(deep copy is the identity on immutable values). -/
structure PreMarketState where
  pre0 : Option (List (ℕ × FormattedRunner))
  pre5 : Option (List (ℕ × FormattedRunner))
  pre10 : Option (List (ℕ × FormattedRunner))
deriving DecidableEq, Repr

/-- The state before any packet: no field set. -/
def initPreMarketState : PreMarketState := ⟨none, none, none⟩

/-- `MetadataBuilder.extend_pre_market`: skip entirely when the market
never goes in-play; otherwise capture the snapshot's runners into each still
unset field whose window `in_play_start - pt < {1s, 5min, 10min}` (in
milliseconds) is satisfied. -/
def extend_pre_market (in_play_start : Option ℤ) (st : PreMarketState)
    (runners : List (ℕ × FormattedRunner)) (pt : ℤ) : PreMarketState :=
  match in_play_start with
  | none => st
  | some start =>
    let milliseconds_to_in_play : ℤ := start - pt
    let st0 :=
      if st.pre0.isNone ∧ milliseconds_to_in_play < 1000 then
        { st with pre0 := some runners }
      else st
    let st5 :=
      if st0.pre5.isNone ∧ milliseconds_to_in_play < 300000 then
        { st0 with pre5 := some runners }
      else st0
    if st5.pre10.isNone ∧ milliseconds_to_in_play < 600000 then
      { st5 with pre10 := some runners }
    else st5

/-- The pre-in-play capture over a packet stream: the repeated
`extend_pre_market` calls of `LadderBuilder.run`, one per snapshot
`(pt, runners)`. -/
def run_pre_market (in_play_start : Option ℤ)
    (snaps : List (ℤ × List (ℕ × FormattedRunner))) : PreMarketState :=
  snaps.foldl (fun st s => extend_pre_market in_play_start st s.2 s.1) initPreMarketState

/-! ## Date parsing (`datetime.strptime(s, "%Y-%m-%dT%H:%M:%S.%fZ")`) -/

/-- A parsed `datetime.datetime` value. -/
structure PyDateTime where
  year : ℕ
  month : ℕ
  day : ℕ
  hour : ℕ
  minute : ℕ
  second : ℕ
  microsecond : ℕ
deriving DecidableEq, Repr

/-- Gregorian leap-year rule, as in `datetime`. -/
def is_leap (y : ℕ) : Bool := y % 4 == 0 && (y % 100 != 0 || y % 400 == 0)

/-- Days in a month, as validated by the `datetime` constructor. -/
def days_in_month (y m : ℕ) : ℕ :=
  if m = 2 then (if is_leap y then 29 else 28)
  else if m = 4 ∨ m = 6 ∨ m = 9 ∨ m = 11 then 30
  else 31

/-- Numeric value of a digit run. -/
def digitsVal (ds : List Char) : ℕ :=
  ds.foldl (fun a c => 10 * a + (c.toNat - 48)) 0

/-- A numeric field of the strptime pattern: consume the maximal digit run
(at least one, at most `maxLen` digits — a longer run cannot reach the
following literal separator, as in the compiled regex), returning its value,
its length and the rest. -/
def expectNum (maxLen : ℕ) (cs : List Char) : Option (ℕ × ℕ × List Char) :=
  let p := cs.span Char.isDigit
  if p.1.length = 0 ∨ maxLen < p.1.length then none
  else some (digitsVal p.1, p.1.length, p.2)

/-- A literal separator character of the pattern. -/
def expectChar (c : Char) (cs : List Char) : Option (List Char) :=
  match cs with
  | x :: rest => if x = c then some rest else none
  | [] => none

/-- A literal letter of the pattern; `strptime` compiles its regex with
`re.IGNORECASE`, so both cases match. -/
def expectCharCI (a b : Char) (cs : List Char) : Option (List Char) :=
  match cs with
  | x :: rest => if x = a ∨ x = b then some rest else none
  | [] => none

/-- The `%Y-%m-%dT` part of the pattern: `%Y` exactly four digits, `%m` and
`%d` one or two digits within their ranges, each followed by its literal
separator (case-insensitive `T`). -/
def parse_date_part (cs : List Char) : Option (ℕ × ℕ × ℕ × List Char) :=
  match expectNum 4 cs with
  | none => none
  | some (y, ly, r1) =>
    if ly = 4 then
      match expectChar '-' r1 with
      | none => none
      | some r2 =>
        match expectNum 2 r2 with
        | none => none
        | some (mo, _, r3) =>
          if 1 ≤ mo ∧ mo ≤ 12 then
            match expectChar '-' r3 with
            | none => none
            | some r4 =>
              match expectNum 2 r4 with
              | none => none
              | some (d, _, r5) =>
                if 1 ≤ d ∧ d ≤ 31 then
                  match expectCharCI 'T' 't' r5 with
                  | none => none
                  | some r6 => some (y, mo, d, r6)
                else none
          else none
    else none

/-- The `%H:%M:%S.` part of the pattern: each field one or two digits
within its range, followed by its literal separator.  The compiled `%S`
pattern admits 60 and 61, which the `datetime` constructor then rejects;
the net bound `≤ 59` is applied here. -/
def parse_time_part (cs : List Char) : Option (ℕ × ℕ × ℕ × List Char) :=
  match expectNum 2 cs with
  | none => none
  | some (h, _, r1) =>
    if h ≤ 23 then
      match expectChar ':' r1 with
      | none => none
      | some r2 =>
        match expectNum 2 r2 with
        | none => none
        | some (mi, _, r3) =>
          if mi ≤ 59 then
            match expectChar ':' r3 with
            | none => none
            | some r4 =>
              match expectNum 2 r4 with
              | none => none
              | some (sec, _, r5) =>
                if sec ≤ 59 then
                  match expectChar '.' r5 with
                  | none => none
                  | some r6 => some (h, mi, sec, r6)
                else none
          else none
    else none

/-- The `%fZ` tail of the pattern: one to six digits right-padded to a
microsecond count, then a case-insensitive `Z`, then end of string. -/
def parse_frac_part (cs : List Char) : Option ℕ :=
  match expectNum 6 cs with
  | none => none
  | some (f, lf, r1) =>
    match expectCharCI 'Z' 'z' r1 with
    | none => none
    | some r2 => if r2 = [] then some (f * 10 ^ (6 - lf)) else none

/-- `datetime.strptime(s, "%Y-%m-%dT%H:%M:%S.%fZ")`: the field-by-field
match of the compiled pattern over the whole string, followed by the
`datetime` constructor's validation (year at least 1, day within the
month).  `none` models the raised `ValueError`. -/
def strptime_iso (s : String) : Option PyDateTime :=
  match parse_date_part s.toList with
  | none => none
  | some (y, mo, d, r1) =>
    match parse_time_part r1 with
    | none => none
    | some (h, mi, sec, r2) =>
      match parse_frac_part r2 with
      | none => none
      | some f =>
        if 1 ≤ y ∧ d ≤ days_in_month y mo then
          some ⟨y, mo, d, h, mi, sec, f⟩
        else none

/-! ## Metadata base (`MetadataBuilder.format_metadata`) -/

/-- The market definition after date normalization: the deep copy kept in
the metadata base, with the three date strings replaced by parsed
datetimes. -/
structure ParsedDefn where
  eventId : String
  openDate : PyDateTime
  marketTime : PyDateTime
  suspendTime : PyDateTime
  runners : List DefRunner
deriving DecidableEq, Repr

/-- The metadata base returned by `MetadataBuilder.format_metadata`:
`marketId` (renamed from `id`), `eventId`, the Mongo `_id`, and the
normalized market definition. -/
structure MetaRecord where
  marketId : String
  eventId : String
  mongo_id : String
  marketDefinition : ParsedDefn
deriving DecidableEq, Repr

/-- `MetadataBuilder.format_metadata` on a market change: read `id`, the
`marketDefinition`, its `eventId`, build `_id`, and parse the three date
strings — each missing key is a `KeyError` and each failed parse a
`ValueError`, in source order. -/
def format_metadata (mc : MarketChange) : Except String MetaRecord :=
  match mc.id with
  | none => .error "KeyError: id"
  | some market_id =>
    match mc.marketDefinition with
    | none => .error "KeyError: marketDefinition"
    | some md =>
      match md.eventId with
      | none => .error "KeyError: eventId"
      | some event_id =>
        match md.openDate with
        | none => .error "KeyError: openDate"
        | some od_s =>
          match strptime_iso od_s with
          | none => .error "ValueError: openDate"
          | some od =>
            match md.marketTime with
            | none => .error "KeyError: marketTime"
            | some mt_s =>
              match strptime_iso mt_s with
              | none => .error "ValueError: marketTime"
              | some mt =>
                match md.suspendTime with
                | none => .error "KeyError: suspendTime"
                | some st_s =>
                  match strptime_iso st_s with
                  | none => .error "ValueError: suspendTime"
                  | some st =>
                    .ok { marketId := market_id
                          eventId := event_id
                          mongo_id := "metadata_" ++ market_id ++ "_" ++ event_id
                          marketDefinition := ⟨event_id, od, mt, st, md.runners⟩ }

/-- The metadata-base construction in `MetadataBuilder.__init__`: read the
last packet's `mc[0]` (`marketdata[-1]["mc"][0]`, each step fallible) and
run `format_metadata` on it.  This happens while the pipeline object is
constructed, before any packet is processed. -/
def metadata_base (marketdata : List Packet) : Except String MetaRecord :=
  match marketdata.getLast? with
  | none => .error "IndexError: marketdata[-1]"
  | some last =>
    match last.mc with
    | none => .error "KeyError: mc"
    | some mcs =>
      match mcs.head? with
      | none => .error "IndexError: mc[0]"
      | some mc => format_metadata mc

/-! ## Post-market winner and favourites (`MetadataBuilder.extend_post_market`) -/

/-- The winner record `{name, id, bsp?}`. -/
structure WinnerInfo where
  name : String
  id : ℕ
  bsp : Option ℚ
deriving DecidableEq, Repr

/-- One favourites entry `{name, id, bsp}`. -/
structure FavEntry where
  name : String
  id : ℕ
  bsp : ℚ
deriving DecidableEq, Repr

/-- `MetadataBuilder.extract_winner_info`: find the first `WINNER` status
(no winner yields `none`), pair the runner's name and id at the winner
index, and, when the `bsp` list is non-empty, attach `bsp[winner_index]` —
an out-of-range index is an `IndexError`, modelled by `.error`. -/
def extract_winner_info (runner_names : List String) (runner_ids : List ℕ)
    (status : List String) (bsp : List ℚ) : Except String (Option WinnerInfo) := do
  match status.findIdx? (fun s => decide (s = "WINNER")) with
  | none => return none
  | some winner_index =>
    let name ← match runner_names.get? winner_index with
      | some n => pure n
      | none => throw "IndexError: runner_names"
    let id ← match runner_ids.get? winner_index with
      | some i => pure i
      | none => throw "IndexError: runner_ids"
    if bsp.isEmpty then
      return some ⟨name, id, none⟩
    else
      match bsp.get? winner_index with
      | some b => return some ⟨name, id, some b⟩
      | none => throw "IndexError: bsp"

/-- Ascending bsp order, for `bsp_tuples.sort(key=lambda x: x[1])` — a
stable sort by the value component. -/
def bspAsc (a b : ℕ × ℚ) : Prop := a.2 ≤ b.2

instance : DecidableRel bspAsc :=
  fun a b => inferInstanceAs (Decidable (a.2 ≤ b.2))

instance : IsTotal (ℕ × ℚ) bspAsc := ⟨fun a b => le_total a.2 b.2⟩

instance : IsTrans (ℕ × ℚ) bspAsc := ⟨fun _ _ _ h1 h2 => le_trans h1 h2⟩

/-- `MetadataBuilder.extract_favourite_info`: `none` when the `bsp` list is
empty; otherwise enumerate the `bsp` list, keep the truthy entries, sort
stably by bsp ascending, and pair each with `runner_names[index]` and
`runner_ids[index]` — indices into the *bsp* list, an out-of-range one being
an `IndexError`. -/
def extract_favourite_info (runner_names : List String) (runner_ids : List ℕ)
    (bsp : List ℚ) : Except String (Option (List FavEntry)) := do
  if bsp.isEmpty then
    return none
  else
    let bsp_tuples := (bsp.enum.filter (fun t => decide (t.2 ≠ 0))).insertionSort bspAsc
    let entries ← bsp_tuples.mapM (fun t => do
      let name ← match runner_names.get? t.1 with
        | some n => pure n
        | none => throw "IndexError: runner_names"
      let id ← match runner_ids.get? t.1 with
        | some i => pure i
        | none => throw "IndexError: runner_ids"
      return FavEntry.mk name id t.2)
    return some entries

/-- Truthiness of a runner's `bsp` field (`if runner.get('bsp')`): present
and non-zero. -/
def truthy_bsp (r : DefRunner) : Option ℚ :=
  match r.bsp with
  | some v => if v = 0 then none else some v
  | none => none

/-- The winner/favourites part of `MetadataBuilder.extend_post_market`:
collect the parallel `name`/`id`/`status` lists and the *compressed* `bsps`
list (only truthy values appended), then derive the optional `winnerInfo`
and `favouriteInfo` fields. -/
def extend_post_market (runners : List DefRunner) :
    Except String (Option WinnerInfo × Option (List FavEntry)) := do
  let runner_names := runners.map (fun r => r.name)
  let runner_ids := runners.map (fun r => r.id)
  let status := runners.map (fun r => r.status)
  let bsps := runners.filterMap truthy_bsp
  let winner_info ← extract_winner_info runner_names runner_ids status bsps
  let favourite_info ← extract_favourite_info runner_names runner_ids bsps
  return (winner_info, favourite_info)

/-! ## Specification-side functions

The best-price definitions of the spec (`bbp = max(atb.keys) or 0`;
`blp = min(atl.keys) or +∞`), stated independently of the stored order, to
be compared with what the code maintains. -/

/-- The greatest price key of a ladder, `none` when empty. -/
def maxKey? : Ladder → Option ℚ
  | [] => none
  | e :: rest =>
    match maxKey? rest with
    | none => some e.1
    | some m => some (max e.1 m)

/-- The least price key of a ladder, `none` when empty. -/
def minKey? : Ladder → Option ℚ
  | [] => none
  | e :: rest =>
    match minKey? rest with
    | none => some e.1
    | some m => some (min e.1 m)

/-- Spec best back price: the maximum price key of `atb`, or `0` if empty. -/
def bbp_spec (l : Ladder) : ℚ := (maxKey? l).getD 0

/-- Spec best lay price: the minimum price key of `atl`, or `+∞`
(`none`) if empty. -/
def blp_spec (l : Ladder) : Option ℚ := minKey? l

/-! ## Helper lemmas -/

/-- `booksSet` never changes the key list of the market book. -/
theorem booksSet_keys (bs : Books) (i : ℕ) (rb : RunnerBook) :
    (booksSet bs i rb).map Prod.fst = bs.map Prod.fst := by
  induction bs with
  | nil => rfl
  | cons e rest ih =>
    simp only [booksSet, List.map_cons, List.map_map] at ih ⊢
    by_cases h : e.1 = i
    · simp [h, ih]
    · simp [h, ih]

/-- A runner id is absent from the book iff it is none of the keys. -/
theorem booksLookup_eq_none_iff (bs : Books) (j : ℕ) :
    booksLookup bs j = none ↔ ∀ e ∈ bs, e.1 ≠ j := by
  simp [booksLookup, List.find?_eq_none]

/-- Updating one runner's book does not make another id appear or
disappear. -/
theorem booksLookup_booksSet_none (bs : Books) (i j : ℕ) (rb : RunnerBook)
    (h : booksLookup bs j = none) : booksLookup (booksSet bs i rb) j = none := by
  rw [booksLookup_eq_none_iff] at h ⊢
  intro e he
  have hkey : e.1 ∈ (booksSet bs i rb).map Prod.fst := List.mem_map_of_mem _ he
  rw [booksSet_keys] at hkey
  obtain ⟨e', he', hexy⟩ := List.mem_map.mp hkey
  rw [← hexy]
  exact h e' he'

/-- Python dict assignment preserves distinctness of the keys. -/
theorem assocSet_keys_nodup (m : Ladder) (p v : ℚ)
    (h : (m.map Prod.fst).Nodup) : ((assocSet m p v).map Prod.fst).Nodup := by
  unfold assocSet
  split
  · have hkeys :
        (m.map (fun e => if e.1 = p then (p, v) else e)).map Prod.fst = m.map Prod.fst := by
      rw [List.map_map]
      apply List.map_congr_left
      intro e _
      by_cases he : e.1 = p
      · simp [he]
      · simp [he]
    rw [hkeys]
    exact h
  · next hp =>
    simp only [List.map_append, List.map_cons, List.map_nil]
    refine List.Nodup.append h (List.nodup_singleton p) ?_
    intro a ha hb
    simp only [List.mem_singleton] at hb
    subst hb
    simp only [List.any_eq_true, decide_eq_true_eq, not_exists, not_and] at hp
    obtain ⟨e, he, hep⟩ := List.mem_map.mp ha
    exact hp e he hep

/-- `dict.update` preserves distinctness of the keys. -/
theorem dict_update_keys_nodup (upd : Ladder) :
    ∀ m : Ladder, (m.map Prod.fst).Nodup → ((dict_update m upd).map Prod.fst).Nodup := by
  induction upd with
  | nil => intro m h; simpa [dict_update] using h
  | cons e rest ih =>
    intro m h
    have h1 := assocSet_keys_nodup m e.1 e.2 h
    simpa [dict_update, List.foldl_cons] using ih (assocSet m e.1 e.2) h1

/-- In a list sorted by `r`, every element outside the prefix kept by
`take` is dominated by every kept element. -/
theorem take_dominance {α : Type} {r : α → α → Prop} {l : List α}
    (h : List.Pairwise r l) (n : ℕ) :
    ∀ x ∈ l, x ∉ l.take n → ∀ y ∈ l.take n, r y x := by
  intro x hx hxn y hy
  have hsplit := List.take_append_drop n l
  have hp : List.Pairwise r (l.take n ++ l.drop n) := by rw [hsplit]; exact h
  have hcross := (List.pairwise_append.mp hp).2.2
  have hxd : x ∈ l.drop n := by
    have hx' : x ∈ l.take n ++ l.drop n := by rw [hsplit]; exact hx
    rcases List.mem_append.mp hx' with h1 | h2
    · exact absurd h1 hxn
    · exact h2
  exact hcross y hy x hxd

/-- The `pre0` field after one capture step. -/
theorem extend_pre_market_pre0 (s : ℤ) (st : PreMarketState)
    (x : List (ℕ × FormattedRunner)) (pt : ℤ) :
    (extend_pre_market (some s) st x pt).pre0 =
      if st.pre0.isNone ∧ s - pt < 1000 then some x else st.pre0 := by
  unfold extend_pre_market
  by_cases h0 : st.pre0 = none ∧ s - pt < 1000
  all_goals by_cases h5 : st.pre5 = none ∧ s - pt < 300000
  all_goals by_cases h10 : st.pre10 = none ∧ s - pt < 600000
  all_goals simp [Option.isNone_iff_eq_none, h0, h5, h10]

/-- The `pre5` field after one capture step: `pre0` capture does not touch
it, and its own window test reads the unmodified `pre5`. -/
theorem extend_pre_market_pre5 (s : ℤ) (st : PreMarketState)
    (x : List (ℕ × FormattedRunner)) (pt : ℤ) :
    (extend_pre_market (some s) st x pt).pre5 =
      if st.pre5.isNone ∧ s - pt < 300000 then some x else st.pre5 := by
  unfold extend_pre_market
  by_cases h0 : st.pre0 = none ∧ s - pt < 1000
  all_goals by_cases h5 : st.pre5 = none ∧ s - pt < 300000
  all_goals by_cases h10 : st.pre10 = none ∧ s - pt < 600000
  all_goals simp [Option.isNone_iff_eq_none, h0, h5, h10]

/-- The `pre10` field after one capture step. -/
theorem extend_pre_market_pre10 (s : ℤ) (st : PreMarketState)
    (x : List (ℕ × FormattedRunner)) (pt : ℤ) :
    (extend_pre_market (some s) st x pt).pre10 =
      if st.pre10.isNone ∧ s - pt < 600000 then some x else st.pre10 := by
  unfold extend_pre_market
  by_cases h0 : st.pre0 = none ∧ s - pt < 1000
  all_goals by_cases h5 : st.pre5 = none ∧ s - pt < 300000
  all_goals by_cases h10 : st.pre10 = none ∧ s - pt < 600000
  all_goals simp [Option.isNone_iff_eq_none, h0, h5, h10]

/-- The capture fold, field by field: a field already set never changes,
and an unset field receives the first qualifying snapshot's runners. -/
theorem pre_market_foldl_char (start : ℤ) :
    ∀ (l : List (ℤ × List (ℕ × FormattedRunner))) (st : PreMarketState),
      ((l.foldl (fun s t => extend_pre_market (some start) s t.2 t.1) st).pre0 =
        match st.pre0 with
        | some v => some v
        | none => (l.find? (fun x => decide (start - x.1 < 1000))).map (fun x => x.2)) ∧
      ((l.foldl (fun s t => extend_pre_market (some start) s t.2 t.1) st).pre5 =
        match st.pre5 with
        | some v => some v
        | none => (l.find? (fun x => decide (start - x.1 < 300000))).map (fun x => x.2)) ∧
      ((l.foldl (fun s t => extend_pre_market (some start) s t.2 t.1) st).pre10 =
        match st.pre10 with
        | some v => some v
        | none => (l.find? (fun x => decide (start - x.1 < 600000))).map (fun x => x.2)) := by
  intro l
  induction l with
  | nil =>
    intro st
    refine ⟨?_, ?_, ?_⟩ <;> (cases h : st.pre0 <;> cases h5 : st.pre5 <;> cases h10 : st.pre10 <;>
      simp_all)
  | cons x rest ih =>
    intro st
    rw [List.foldl_cons]
    obtain ⟨ih0, ih5, ih10⟩ := ih (extend_pre_market (some start) st x.2 x.1)
    refine ⟨?_, ?_, ?_⟩
    · rw [ih0, extend_pre_market_pre0]
      cases h : st.pre0 with
      | some v => simp
      | none =>
        by_cases hq : start - x.1 < 1000
        · have hp : (fun y : ℤ × List (ℕ × FormattedRunner) =>
              decide (start - y.1 < 1000)) x = true := by simpa using hq
          simp [hq, List.find?_cons_of_pos _ hp]
        · have hp : ¬(fun y : ℤ × List (ℕ × FormattedRunner) =>
              decide (start - y.1 < 1000)) x = true := by simpa using hq
          simp [hq, List.find?_cons_of_neg _ hp]
    · rw [ih5, extend_pre_market_pre5]
      cases h : st.pre5 with
      | some v => simp
      | none =>
        by_cases hq : start - x.1 < 300000
        · have hp : (fun y : ℤ × List (ℕ × FormattedRunner) =>
              decide (start - y.1 < 300000)) x = true := by simpa using hq
          simp [hq, List.find?_cons_of_pos _ hp]
        · have hp : ¬(fun y : ℤ × List (ℕ × FormattedRunner) =>
              decide (start - y.1 < 300000)) x = true := by simpa using hq
          simp [hq, List.find?_cons_of_neg _ hp]
    · rw [ih10, extend_pre_market_pre10]
      cases h : st.pre10 with
      | some v => simp
      | none =>
        by_cases hq : start - x.1 < 600000
        · have hp : (fun y : ℤ × List (ℕ × FormattedRunner) =>
              decide (start - y.1 < 600000)) x = true := by simpa using hq
          simp [hq, List.find?_cons_of_pos _ hp]
        · have hp : ¬(fun y : ℤ × List (ℕ × FormattedRunner) =>
              decide (start - y.1 < 600000)) x = true := by simpa using hq
          simp [hq, List.find?_cons_of_neg _ hp]

/-- In a list with monotone first components, the first match of a
predicate has the least first component among all matches. -/
theorem find?_first_min {β : Type} (p : (ℤ × β) → Bool) :
    ∀ (l : List (ℤ × β)), List.Pairwise (fun a b => a.1 ≤ b.1) l →
      ∀ q, l.find? p = some q → ∀ x ∈ l, p x = true → q.1 ≤ x.1 := by
  intro l
  induction l with
  | nil => intro _ q hq; simp at hq
  | cons a rest ih =>
    intro hmono q hq x hx hpx
    rcases List.pairwise_cons.mp hmono with ⟨hbound, htail⟩
    by_cases hpa : p a = true
    · rw [List.find?_cons_of_pos _ hpa] at hq
      obtain rfl : a = q := by simpa using hq
      rcases List.mem_cons.mp hx with rfl | hx'
      · exact le_rfl
      · exact hbound x hx'
    · rw [List.find?_cons_of_neg _ hpa] at hq
      rcases List.mem_cons.mp hx with rfl | hx'
      · exact absurd hpx hpa
      · exact ih htail q hq x hx' hpx

/-- Every entry of `booksSet bs i rb` is either the new binding or an
entry of `bs`. -/
theorem mem_booksSet (bs : Books) (i : ℕ) (rb : RunnerBook) :
    ∀ x ∈ booksSet bs i rb, x = (i, rb) ∨ x ∈ bs := by
  intro x hx
  obtain ⟨e, he, hex⟩ := List.mem_map.mp hx
  by_cases h : e.1 = i
  · left
    rw [← hex]
    simp [h]
  · right
    rw [← hex]
    simpa [h] using he

/-- `update_ladder` never changes the key list of the market book. -/
theorem update_ladder_keys (m : MarketChange) :
    ∀ (bs bs2 : Books), update_ladder bs m = some bs2 →
      bs2.map Prod.fst = bs.map Prod.fst := by
  obtain ⟨mid, rcf, md⟩ := m
  cases rcf with
  | none => intro bs bs2 h; simp [update_ladder] at h
  | some rcs =>
    simp only [update_ladder]
    induction rcs with
    | nil =>
      intro bs bs2 h
      simp only [List.foldlM_nil, Option.pure_def, Option.some.injEq] at h
      rw [← h]
    | cons rc rest ih =>
      intro bs bs2 h
      rw [List.foldlM_cons] at h
      cases hlook : booksLookup bs rc.id with
      | none => rw [hlook] at h; simp at h
      | some rb =>
        rw [hlook] at h
        simp only [Option.bind_eq_bind, Option.some_bind] at h
        have := ih (booksSet bs rc.id (apply_runner_change rb rc)) bs2 h
        rw [this, booksSet_keys]

/-- The market-book sortedness invariant: every stored `atb` descending,
every stored `atl` ascending. -/
def booksSorted (bs : Books) : Prop :=
  ∀ e ∈ bs, List.Sorted keyDesc e.2.atb ∧ List.Sorted keyAsc e.2.atl

/-- A freshly updated runner book has sorted `atb`/`atl` sides. -/
theorem apply_runner_change_sorted (rb : RunnerBook) (rc : RunnerChange) :
    List.Sorted keyDesc (apply_runner_change rb rc).atb ∧
    List.Sorted keyAsc (apply_runner_change rb rc).atl :=
  ⟨List.Pairwise.sublist (List.take_sublist 10 _) (List.sorted_insertionSort keyDesc _),
   List.Pairwise.sublist (List.take_sublist 10 _) (List.sorted_insertionSort keyAsc _)⟩

/-- `update_ladder` preserves the sortedness invariant. -/
theorem update_ladder_sorted (m : MarketChange) :
    ∀ (bs bs2 : Books), booksSorted bs → update_ladder bs m = some bs2 →
      booksSorted bs2 := by
  obtain ⟨mid, rcf, md⟩ := m
  cases rcf with
  | none => intro bs bs2 _ h; simp [update_ladder] at h
  | some rcs =>
    simp only [update_ladder]
    induction rcs with
    | nil =>
      intro bs bs2 hs h
      simp only [List.foldlM_nil, Option.pure_def, Option.some.injEq] at h
      rw [← h]
      exact hs
    | cons rc rest ih =>
      intro bs bs2 hs h
      rw [List.foldlM_cons] at h
      cases hlook : booksLookup bs rc.id with
      | none => rw [hlook] at h; simp at h
      | some rb =>
        rw [hlook] at h
        simp only [Option.bind_eq_bind, Option.some_bind] at h
        refine ih (booksSet bs rc.id (apply_runner_change rb rc)) bs2 ?_ h
        intro x hx
        rcases mem_booksSet _ _ _ x hx with rfl | hxm
        · exact apply_runner_change_sorted rb rc
        · exact hs x hxm

/-- A fold of per-element maps over an accumulator list is the pointwise
fold over each element. -/
theorem foldl_map_comm {α β : Type} (g : β → α → α) :
    ∀ (fl : List β) (bs : List α),
      fl.foldl (fun acc e => acc.map (g e)) bs =
        bs.map (fun a => fl.foldl (fun x e => g e x) a) := by
  intro fl
  induction fl with
  | nil => intro bs; simp
  | cons e rest ih =>
    intro bs
    rw [List.foldl_cons, ih (bs.map (g e)), List.map_map]
    apply List.map_congr_left
    intro a _
    rw [List.foldl_cons]
    rfl

/-- A per-entry rewrite that keeps the key component keeps the key list. -/
theorem map_entry_keys (bs : Books) (g : ℕ × RunnerBook → RunnerBook) :
    ((bs.map (fun a => (a.1, g a))).map Prod.fst) = bs.map Prod.fst := by
  rw [List.map_map]
  apply List.map_congr_left
  intro a _
  rfl

/-- The best-price write-back skips entries with foreign keys. -/
theorem setbest_fold_skip :
    ∀ (fl : List (ℕ × FormattedRunner)) (p : ℕ × RunnerBook), (∀ e ∈ fl, e.1 ≠ p.1) →
      fl.foldl
        (fun x e =>
          if x.1 = e.1 then
            (x.1, { x.2 with bbp := (check_arbitrage e.2).1, blp := (check_arbitrage e.2).2.1 })
          else x)
        p = p := by
  intro fl
  induction fl with
  | nil => intro p _; rfl
  | cons e rest ih =>
    intro p hne
    rw [List.foldl_cons]
    have h1 : ¬(p.1 = e.1) := fun hc => hne e (List.mem_cons_self e rest) hc.symm
    rw [if_neg h1]
    exact ih p (fun x hx => hne x (List.mem_cons_of_mem e hx))

/-- The best-price write-back hits exactly its own formatted entry when
the snapshot's keys are distinct. -/
theorem setbest_fold_hit (i : ℕ) (b : RunnerBook) (fr : FormattedRunner) :
    ∀ (fl : List (ℕ × FormattedRunner)), (fl.map Prod.fst).Nodup →
      (i, fr) ∈ fl →
      fl.foldl
        (fun x e =>
          if x.1 = e.1 then
            (x.1, { x.2 with bbp := (check_arbitrage e.2).1, blp := (check_arbitrage e.2).2.1 })
          else x)
        (i, b) =
        (i, { b with bbp := (check_arbitrage fr).1, blp := (check_arbitrage fr).2.1 }) := by
  intro fl
  induction fl with
  | nil => intro _ hmem; simp at hmem
  | cons e rest ih =>
    intro hnd hmem
    rw [List.map_cons, List.nodup_cons] at hnd
    obtain ⟨hhead, htail⟩ := hnd
    rw [List.foldl_cons]
    rcases List.mem_cons.mp hmem with heq | hmem'
    · subst heq
      rw [if_pos rfl]
      have hreskeys : ∀ x ∈ rest, x.1 ≠ i := by
        intro x hx hxi
        apply hhead
        simpa [hxi] using List.mem_map_of_mem Prod.fst hx
      exact setbest_fold_skip rest _ (fun x hx hxi => hreskeys x hx (by simpa using hxi))
    · have hne : ¬((i, b).1 = e.1) := by
        intro hc
        apply hhead
        have hmm : i ∈ rest.map Prod.fst := List.mem_map_of_mem Prod.fst hmem'
        simpa [← hc] using hmm
      rw [if_neg hne]
      exact ih htail hmem'

/-- The formatted snapshot has the same keys as the market book. -/
theorem format_ladder_keys (bs : Books) :
    (format_ladder bs).map Prod.fst = bs.map Prod.fst := by
  simp [format_ladder, List.map_map]

/-- `raise_if_arbitrage` over a book's own formatted snapshot rewrites
every runner's `bbp`/`blp` from its own formatted entry, provided the keys
are distinct. -/
theorem raise_if_arbitrage_entries (bs : Books)
    (hnd : (bs.map Prod.fst).Nodup) :
    raise_if_arbitrage bs (format_ladder bs) =
      bs.map (fun a =>
        (a.1, { a.2 with bbp := (check_arbitrage (format_runner a.2)).1, blp := (check_arbitrage (format_runner a.2)).2.1 })) := by
  have hcomm :
      raise_if_arbitrage bs (format_ladder bs) =
        bs.map (fun a => (format_ladder bs).foldl
          (fun x e =>
            if x.1 = e.1 then
              (x.1, { x.2 with bbp := (check_arbitrage e.2).1, blp := (check_arbitrage e.2).2.1 })
            else x)
          a) :=
    foldl_map_comm
      (fun (e : ℕ × FormattedRunner) (x : ℕ × RunnerBook) =>
        if x.1 = e.1 then
          (x.1, { x.2 with bbp := (check_arbitrage e.2).1, blp := (check_arbitrage e.2).2.1 })
        else x)
      (format_ladder bs) bs
  rw [hcomm]
  apply List.map_congr_left
  intro a ha
  have hndfl : ((format_ladder bs).map Prod.fst).Nodup := by
    rw [format_ladder_keys]
    exact hnd
  have hmem : (a.1, format_runner a.2) ∈ format_ladder bs := by
    rw [format_ladder]
    exact List.mem_map_of_mem _ ha
  exact setbest_fold_hit a.1 a.2 (format_runner a.2) (format_ladder bs) hndfl hmem

/-- The greatest key of a ladder is a key of the ladder. -/
theorem maxKey?_mem : ∀ (l : Ladder) (m : ℚ), maxKey? l = some m → m ∈ l.map Prod.fst := by
  intro l
  induction l with
  | nil => intro m h; simp [maxKey?] at h
  | cons e rest ih =>
    intro m h
    rw [maxKey?] at h
    cases hr : maxKey? rest with
    | none =>
      rw [hr] at h
      simp only [Option.some.injEq] at h
      simp [← h]
    | some m2 =>
      rw [hr] at h
      simp only [Option.some.injEq] at h
      rcases max_choice e.1 m2 with hc | hc
    
      · simp [← h, hc]
      · right
        rw [← h, hc]
        exact ih m2 hr

/-- The least key of a ladder is a key of the ladder. -/
theorem minKey?_mem : ∀ (l : Ladder) (m : ℚ), minKey? l = some m → m ∈ l.map Prod.fst := by
  intro l
  induction l with
  | nil => intro m h; simp [minKey?] at h
  | cons e rest ih =>
    intro m h
    rw [minKey?] at h
    cases hr : minKey? rest with
    | none =>
      rw [hr] at h
      simp only [Option.some.injEq] at h
      simp [← h]
    | some m2 =>
      rw [hr] at h
      simp only [Option.some.injEq] at h
      rcases min_choice e.1 m2 with hc | hc
      · simp [← h, hc]
      · right
        rw [← h, hc]
        exact ih m2 hr

/-- In a descending-sorted ladder the head price is the greatest key. -/
theorem maxKey?_of_sorted_desc (l : Ladder) (h : List.Sorted keyDesc l) :
    maxKey? l = l.head?.map (fun e => e.1) := by
  cases l with
  | nil => rfl
  | cons e rest =>
    rw [maxKey?]
    cases hr : maxKey? rest with
    | none => rfl
    | some m =>
      have hm : m ∈ rest.map Prod.fst := maxKey?_mem rest m hr
      obtain ⟨y, hy, hym⟩ := List.mem_map.mp hm
      have hle : keyDesc e y := (List.pairwise_cons.mp h).1 y hy
      have : m ≤ e.1 := by rw [← hym]; exact hle
      simp [max_eq_left this]

/-- In an ascending-sorted ladder the head price is the least key. -/
theorem minKey?_of_sorted_asc (l : Ladder) (h : List.Sorted keyAsc l) :
    minKey? l = l.head?.map (fun e => e.1) := by
  cases l with
  | nil => rfl
  | cons e rest =>
    rw [minKey?]
    cases hr : minKey? rest with
    | none => rfl
    | some m =>
      have hm : m ∈ rest.map Prod.fst := minKey?_mem rest m hr
      obtain ⟨y, hy, hym⟩ := List.mem_map.mp hm
      have hle : keyAsc e y := (List.pairwise_cons.mp h).1 y hy
      have : e.1 ≤ m := by rw [← hym]; exact hle
      simp [min_eq_left this]

/-- `check_arbitrage` on a sorted runner's formatted entry: the stored-back
best prices are the spec best prices, and the crossed-book flag is live —
true exactly when the least lay price undercuts the greatest back price. -/
theorem check_arbitrage_formatted (rb : RunnerBook)
    (hd : List.Sorted keyDesc rb.atb) (ha : List.Sorted keyAsc rb.atl) :
    (check_arbitrage (format_runner rb)).1 = bbp_spec rb.atb ∧
    (check_arbitrage (format_runner rb)).2.1 = blp_spec rb.atl ∧
    ((check_arbitrage (format_runner rb)).2.2 = true ↔
      ∃ b, blp_spec rb.atl = some b ∧ b < bbp_spec rb.atb) := by
  have hb : bbp_spec rb.atb = match rb.atb.head? with
      | some e => e.1
      | none => 0 := by
    rw [bbp_spec, maxKey?_of_sorted_desc rb.atb hd]
    cases rb.atb <;> simp
  have hl : blp_spec rb.atl = rb.atl.head?.map (fun e => e.1) :=
    minKey?_of_sorted_asc rb.atl ha
  have hfr_atb : (format_runner rb).atb = rb.atb := rfl
  have hfr_atl : (format_runner rb).atl = rb.atl := rfl
  refine ⟨?_, ?_, ?_⟩
  · rw [check_arbitrage, hb, hfr_atb]
  · rw [check_arbitrage, hl, hfr_atl]
  · rw [check_arbitrage]
    simp only [hfr_atb, hfr_atl]
    cases hh : rb.atl.head? with
    | none =>
      simp [hl, hh]
    | some e =>
      simp only [Option.map_some']
      constructor
      · intro hlt
        refine ⟨e.1, by rw [hl, hh]; rfl, ?_⟩
        rw [hb]
        simpa using hlt
      · rintro ⟨b, hbl, hblt⟩
        rw [hl, hh] at hbl
        simp only [Option.map_some', Option.some.injEq] at hbl
        rw [hb] at hblt
        simp only [decide_eq_true_eq]
        rw [← hbl] at hblt
        exact hblt

/-- The market-book best-price invariant of the spec. -/
def booksBestOk (bs : Books) : Prop :=
  ∀ e ∈ bs, e.2.bbp = bbp_spec e.2.atb ∧ e.2.blp = blp_spec e.2.atl

/-- The combined reachability invariant: distinct keys, sorted sides,
spec-correct best prices. -/
def booksInv (bs : Books) : Prop :=
  (bs.map Prod.fst).Nodup ∧ booksSorted bs ∧ booksBestOk bs

/-- One packet application preserves the combined invariant, re-deriving
the best prices from the just-formatted snapshot. -/
theorem step_books_inv (bs : Books) (m : MarketChange) (bs2 : Books)
    (hinv : booksInv bs) (h : step_books bs m = some bs2) : booksInv bs2 := by
  obtain ⟨hnd, hs, _⟩ := hinv
  rw [step_books] at h
  cases hu : update_ladder bs m with
  | none => rw [hu] at h; simp at h
  | some bsu =>
    rw [hu] at h
    simp only [Option.map_some', Option.some.injEq] at h
    have hkeys : bsu.map Prod.fst = bs.map Prod.fst := update_ladder_keys m bs bsu hu
    have hndu : (bsu.map Prod.fst).Nodup := by rw [hkeys]; exact hnd
    have hsu : booksSorted bsu := update_ladder_sorted m bs bsu hs hu
    have hraise := raise_if_arbitrage_entries bsu hndu
    have k1 : ((raise_if_arbitrage bsu (format_ladder bsu)).map Prod.fst) =
        bsu.map Prod.fst := by
      rw [hraise]
      exact map_entry_keys bsu _
    have k2 : ((reset_runner_trades (raise_if_arbitrage bsu (format_ladder bsu))).map Prod.fst) =
        (raise_if_arbitrage bsu (format_ladder bsu)).map Prod.fst := by
      rw [reset_runner_trades]
      exact map_entry_keys _ _
    refine ⟨?_, ?_, ?_⟩
    · rw [← h, k2, k1]
      exact hndu
    · rw [← h, hraise]
      intro x hx
      rw [reset_runner_trades] at hx
      obtain ⟨y, hy, hyx⟩ := List.mem_map.mp hx
      obtain ⟨a, hamem, hay⟩ := List.mem_map.mp hy
      obtain ⟨hda, hsa⟩ := hsu a hamem
      rw [← hyx, ← hay]
      exact ⟨hda, hsa⟩
    · rw [← h, hraise]
      intro x hx
      rw [reset_runner_trades] at hx
      obtain ⟨y, hy, hyx⟩ := List.mem_map.mp hx
      obtain ⟨a, hamem, hay⟩ := List.mem_map.mp hy
      obtain ⟨hda, hsa⟩ := hsu a hamem
      obtain ⟨hc1, hc2, _⟩ := check_arbitrage_formatted a.2 hda hsa
      rw [← hyx, ← hay]
      exact ⟨hc1, hc2⟩

/-- The combined invariant holds along any successful packet run. -/
theorem run_books_inv (mcs : List MarketChange) :
    ∀ (bs bs2 : Books), booksInv bs → run_books bs mcs = some bs2 → booksInv bs2 := by
  induction mcs with
  | nil =>
    intro bs bs2 hinv h
    simp only [run_books, List.foldlM_nil, Option.pure_def, Option.some.injEq] at h
    rw [← h]
    exact hinv
  | cons m rest ih =>
    intro bs bs2 hinv h
    rw [run_books, List.foldlM_cons] at h
    cases hstep : step_books bs m with
    | none => rw [hstep] at h; simp at h
    | some bsm =>
      rw [hstep] at h
      simp only [Option.bind_eq_bind, Option.some_bind] at h
      exact ih bsm bs2 (step_books_inv bs m bsm hinv hstep) h

/-- The invariant holds at the initial market book. -/
theorem create_ladder_ds_inv (roster : List ℕ) : booksInv (create_ladder_ds roster) := by
  refine ⟨?_, ?_, ?_⟩
  · rw [create_ladder_ds]
    have hcomp : (Prod.fst ∘ fun i : ℕ => (i, initRunnerBook)) = id := rfl
    rw [List.map_map, hcomp, List.map_id]
    exact roster.nodup_dedup
  · intro e he
    rw [create_ladder_ds] at he
    obtain ⟨i, _, hie⟩ := List.mem_map.mp he
    rw [← hie]
    exact ⟨List.Pairwise.nil, List.Pairwise.nil⟩
  · intro e he
    rw [create_ladder_ds] at he
    obtain ⟨i, _, hie⟩ := List.mem_map.mp he
    rw [← hie]
    exact ⟨rfl, rfl⟩

/-! ## Claims -/

/-- C9: a scalar field (`ltp`, `tv`) is overwritten exactly by a present
truthy value; an absent key or a falsy value — a literal `0` included —
preserves the stored value, so a `0` can never be newly recorded. -/
theorem C9_scalar_truthy_semantics (current change : Option ℚ) :
    (∀ v, change = some v → v ≠ 0 → update_runner_value current change = some v) ∧
    (change = none → update_runner_value current change = current) ∧
    (change = some 0 → update_runner_value current change = current) ∧
    (update_runner_value current change = some 0 → current = some 0) := by
  refine ⟨?_, ?_, ?_, ?_⟩
  · rintro v rfl hv
    simp [update_runner_value, hv]
  · rintro rfl
    rfl
  · rintro rfl
    simp [update_runner_value]
  · intro h
    cases change with
    | none => simpa [update_runner_value] using h
    | some v =>
      by_cases hv : v = 0
      · subst hv
        simpa [update_runner_value] using h
      · simp [update_runner_value, hv] at h

/-- C9 witness: concrete evaluations through the theorem. -/
theorem C9_scalar_truthy_semantics_witness :
    update_runner_value (some 5) (some 0) = some 5 ∧
    update_runner_value (some 5) (some 7) = some 7 :=
  ⟨(C9_scalar_truthy_semantics (some 5) (some 0)).2.2.1 rfl,
   (C9_scalar_truthy_semantics (some 5) (some 7)).1 7 rfl (by decide)⟩

/-- C8: decoding a packet succeeds exactly when `pt` is present and `mc`
holds exactly one market change, in which case it yields the converted
timestamp and `mc[0]`; a missing `pt`, a missing or empty `mc`, or
`|mc| ≠ 1` fails. -/
theorem C8_process_packet_spec (p : Packet) :
    ((∃ r, process_packet p = .ok r) ↔
      (p.pt.isSome ∧ ∃ l, p.mc = some l ∧ l.length = 1)) ∧
    (∀ t m, process_packet p = .ok (t, m) →
      p.pt = some t.millis ∧ p.mc = some [m]) := by
  obtain ⟨pt, mc⟩ := p
  cases pt with
  | none => simp [process_packet]
  | some t =>
    cases mc with
    | none => simp [process_packet]
    | some l =>
      cases l with
      | nil => simp [process_packet]
      | cons m rest =>
        cases rest with
        | nil =>
          constructor
          · simp [process_packet, pd_to_datetime]
          · intro t' m' h
            simp [process_packet, pd_to_datetime] at h
            obtain ⟨h1, h2⟩ := h
            subst h2
            simp [← h1]
        | cons m2 rest2 =>
          have hlen : (m :: m2 :: rest2).length ≠ 1 := by
            simp
          constructor
          · simp [process_packet, hlen]
          · intro t' m' h
            simp [process_packet, hlen] at h

/-- C8 witness: a well-formed single-change packet decodes through the
theorem. -/
theorem C8_process_packet_spec_witness :
    (⟨some 1700000000000, some [⟨some "1.22", none, none⟩]⟩ : Packet).pt =
      some (⟨1700000000000⟩ : PdTimestamp).millis ∧
    (⟨some 1700000000000, some [⟨some "1.22", none, none⟩]⟩ : Packet).mc =
      some [⟨some "1.22", none, none⟩] :=
  (C8_process_packet_spec ⟨some 1700000000000, some [⟨some "1.22", none, none⟩]⟩).2
    ⟨1700000000000⟩ ⟨some "1.22", none, none⟩ rfl

/-- C1 counterexample: a packet whose `rc` holds a runner change with an
id outside the initial roster is *not* silently ignored — applying it
raises (`none`, the `KeyError` of `self.current_ladder[runner_id]`),
whereas the same packet with the unknown change absent leaves the books
unchanged and succeeds. -/
theorem C1_unknown_runner_counterexample :
    update_ladder (create_ladder_ds [1])
        ⟨some "1.1", some [⟨2, [(3, 5)], [], [], none, none⟩], none⟩ = none ∧
    update_ladder (create_ladder_ds [1]) ⟨some "1.1", some [], none⟩ =
      some (create_ladder_ds [1]) := by
  decide

/-- C1 amended: a runner change whose id is not a key of the market book
makes the whole packet application fail (a `KeyError` in the source, which
aborts the market file) — the change is not ignored. -/
theorem C1_unknown_runner_raises (bs : Books) (m : MarketChange)
    (rcs : List RunnerChange) (hrc : m.rc = some rcs)
    (hex : ∃ rc ∈ rcs, booksLookup bs rc.id = none) :
    update_ladder bs m = none := by
  obtain ⟨mid, rcf, md⟩ := m
  simp only at hrc
  subst hrc
  simp only [update_ladder]
  induction rcs generalizing bs with
  | nil => simp at hex
  | cons rc rest ih =>
    rw [List.foldlM_cons]
    obtain ⟨rc', hmem, hnone⟩ := hex
    rcases List.mem_cons.mp hmem with h | h
    · subst h
      rw [hnone]
      rfl
    · cases hlook : booksLookup bs rc.id with
      | none => rfl
      | some rb =>
        simpa using ih (booksSet bs rc.id (apply_runner_change rb rc))
          ⟨rc', h, booksLookup_booksSet_none bs rc.id rc'.id _ hnone⟩

/-- C1 amended witness: the concrete unknown-runner packet fails through
the theorem. -/
theorem C1_unknown_runner_raises_witness :
    update_ladder (create_ladder_ds [1])
        ⟨some "1.1", some [⟨2, [(3, 5)], [], [], none, none⟩], none⟩ = none :=
  C1_unknown_runner_raises _ _ _ rfl
    ⟨⟨2, [(3, 5)], [], [], none, none⟩, by decide, by decide⟩

/-- C3: with the roster `[A winner without bsp, B loser with bsp 5]` the
code pairs the winner `A` with runner `B`'s bsp and emits a favourites
entry carrying `A`'s name and id with `B`'s bsp — instead of the claimed
winner-without-bsp and favourites restricted to `B`; and with
`[A loser without bsp, B winner with bsp 3]` it raises an `IndexError`
instead of emitting `B` with its own bsp.  The compressed `bsps` list is
indexed with positions taken from the full runner list. -/
theorem C3_bsp_misalignment :
    extend_post_market [⟨"A", 1, "WINNER", none⟩, ⟨"B", 2, "LOSER", some 5⟩] =
      .ok (some ⟨"A", 1, some 5⟩, some [⟨"A", 1, 5⟩]) ∧
    extend_post_market [⟨"A", 1, "LOSER", none⟩, ⟨"B", 2, "WINNER", some 3⟩] =
      .error "IndexError: bsp" ∧
    extend_post_market [⟨"A", 1, "LOSER", some 5⟩, ⟨"B", 2, "WINNER", some 3⟩] =
      .ok (some ⟨"B", 2, some 3⟩, some [⟨"B", 2, 3⟩, ⟨"A", 1, 5⟩]) := by
  decide

/-- C2: trade derivation.  Each `[price, new-cumulative]` entry of the
change's `trd` list is differenced against the pre-packet `trd` (prior `0`
when absent) and rounded to two decimals; a non-positive delta is discarded
without touching `ttrdv`, otherwise `ttrdv` grows by exactly the delta and
the trade `[price, delta, side]` is recorded, the side classified against
`bbp`/`blp`.  The classification values are the pre-packet ones:
`apply_runner_change` leaves `bbp`/`blp` untouched and derives the trades
from the unmodified book, and the initial book carries `bbp = 0`,
`blp = +∞`. -/
theorem C2_trade_derivation (rb : RunnerBook) (rc : RunnerChange) :
    update_runner_trades rb rc =
      (rc.trd.filterMap (fun tu =>
          if round2 (tu.2 - (assocLookup rb.trd tu.1).getD 0) ≤ 0 then none
          else some ⟨tu.1, round2 (tu.2 - (assocLookup rb.trd tu.1).getD 0),
            classify_side rb.bbp rb.blp tu.1⟩),
       rb.ttrdv + (rc.trd.map (fun tu =>
          if round2 (tu.2 - (assocLookup rb.trd tu.1).getD 0) ≤ 0 then 0
          else round2 (tu.2 - (assocLookup rb.trd tu.1).getD 0))).sum) ∧
    (apply_runner_change rb rc).trades = (update_runner_trades rb rc).1 ∧
    (apply_runner_change rb rc).ttrdv = (update_runner_trades rb rc).2 ∧
    (apply_runner_change rb rc).bbp = rb.bbp ∧
    (apply_runner_change rb rc).blp = rb.blp ∧
    initRunnerBook.bbp = 0 ∧ initRunnerBook.blp = none := by
  refine ⟨?_, rfl, rfl, rfl, rfl, rfl, rfl⟩
  have aux : ∀ (l : List (ℚ × ℚ)) (a : List Trade) (t : ℚ),
      l.foldl
        (fun acc tu =>
          let traded_price := tu.1
          let total_volume := tu.2
          let traded_volume :=
            round2 (total_volume - (assocLookup rb.trd traded_price).getD 0)
          if traded_volume ≤ 0 then acc
          else
            (acc.1 ++ [⟨traded_price, traded_volume,
                classify_side rb.bbp rb.blp traded_price⟩],
             acc.2 + traded_volume))
        (a, t) =
      (a ++ l.filterMap (fun tu =>
          if round2 (tu.2 - (assocLookup rb.trd tu.1).getD 0) ≤ 0 then none
          else some ⟨tu.1, round2 (tu.2 - (assocLookup rb.trd tu.1).getD 0),
            classify_side rb.bbp rb.blp tu.1⟩),
       t + (l.map (fun tu =>
          if round2 (tu.2 - (assocLookup rb.trd tu.1).getD 0) ≤ 0 then 0
          else round2 (tu.2 - (assocLookup rb.trd tu.1).getD 0))).sum) := by
    intro l
    induction l with
    | nil => intro a t; simp
    | cons tu rest ih =>
      intro a t
      simp only [List.foldl_cons, List.filterMap_cons, List.map_cons, List.sum_cons]
      by_cases htv : round2 (tu.2 - (assocLookup rb.trd tu.1).getD 0) ≤ 0
      · simp only [htv, if_true, ite_true]
        rw [ih]
        simp
      · simp only [htv, if_false, ite_false]
        rw [ih]
        simp [add_assoc]
  simpa [update_runner_trades] using aux rc.trd [] rb.ttrdv

/-- C5: a ladder-side update merges the update entries into the prior
mapping, drops entries of size `≤ 0`, and then: `atb` keeps at most 10
entries, stored in descending price order, every dropped merged entry
strictly below every kept price; `atl` symmetrically keeps at most 10 in
ascending order, every dropped entry strictly above every kept price;
`trd` keeps all surviving entries in ascending order.  All retained sizes
are strictly positive.  (`x.1` is the price, `x.2` the size; distinctness
of the prior keys is the Python-dict invariant.) -/
theorem C5_ladder_side_semantics (rb : RunnerBook) (rc : RunnerChange)
    (hatb : (rb.atb.map Prod.fst).Nodup) (hatl : (rb.atl.map Prod.fst).Nodup) :
    ((update_runner_ladder rb rc .atb).length ≤ 10 ∧
     List.Sorted keyDesc (update_runner_ladder rb rc .atb) ∧
     (∀ x ∈ update_runner_ladder rb rc .atb,
        x ∈ (dict_update rb.atb (list_ladder_to_dict rc.atb)).filter
          (fun e => decide (0 < e.2)) ∧ 0 < x.2) ∧
     (∀ x ∈ (dict_update rb.atb (list_ladder_to_dict rc.atb)).filter
          (fun e => decide (0 < e.2)),
        x ∉ update_runner_ladder rb rc .atb →
        ∀ y ∈ update_runner_ladder rb rc .atb, x.1 < y.1)) ∧
    ((update_runner_ladder rb rc .atl).length ≤ 10 ∧
     List.Sorted keyAsc (update_runner_ladder rb rc .atl) ∧
     (∀ x ∈ update_runner_ladder rb rc .atl,
        x ∈ (dict_update rb.atl (list_ladder_to_dict rc.atl)).filter
          (fun e => decide (0 < e.2)) ∧ 0 < x.2) ∧
     (∀ x ∈ (dict_update rb.atl (list_ladder_to_dict rc.atl)).filter
          (fun e => decide (0 < e.2)),
        x ∉ update_runner_ladder rb rc .atl →
        ∀ y ∈ update_runner_ladder rb rc .atl, y.1 < x.1)) ∧
    ((update_runner_ladder rb rc .trd).Perm
        ((dict_update rb.trd (list_ladder_to_dict rc.trd)).filter
          (fun e => decide (0 < e.2))) ∧
     List.Sorted keyAsc (update_runner_ladder rb rc .trd) ∧
     ∀ x ∈ update_runner_ladder rb rc .trd, 0 < x.2) := by
  refine ⟨⟨?_, ?_, ?_, ?_⟩, ⟨?_, ?_, ?_, ?_⟩, ?_, ?_, ?_⟩
  · simp only [update_runner_ladder]
    rw [List.length_take]
    omega
  · exact List.Pairwise.sublist (List.take_sublist 10 _)
      (List.sorted_insertionSort keyDesc _)
  · intro x hx
    simp only [update_runner_ladder] at hx
    have hx2 : x ∈ (dict_update rb.atb (list_ladder_to_dict rc.atb)).filter
        (fun e => decide (0 < e.2)) :=
      (List.mem_insertionSort keyDesc).mp (List.take_subset 10 _ hx)
    exact ⟨hx2, by simpa using (List.mem_filter.mp hx2).2⟩
  · intro x hxk hxn y hy
    simp only [update_runner_ladder] at hxn hy
    have hnd : (((dict_update rb.atb (list_ladder_to_dict rc.atb)).filter
        (fun e => decide (0 < e.2))).map Prod.fst).Nodup :=
      List.Nodup.sublist (List.Sublist.map Prod.fst (List.filter_sublist _))
        (dict_update_keys_nodup (list_ladder_to_dict rc.atb) rb.atb hatb)
    have hxs : x ∈ ((dict_update rb.atb (list_ladder_to_dict rc.atb)).filter
        (fun e => decide (0 < e.2))).insertionSort keyDesc :=
      (List.mem_insertionSort keyDesc).mpr hxk
    have hyk := (List.mem_insertionSort keyDesc).mp (List.take_subset 10 _ hy)
    have hle : keyDesc y x :=
      take_dominance (List.sorted_insertionSort keyDesc _) 10 x hxs hxn y hy
    have hne : x.1 ≠ y.1 := by
      intro heq
      have hinj := List.inj_on_of_nodup_map hnd
      have hxy : x = y := hinj hxk hyk heq
      rw [hxy] at hxn
      exact hxn hy
    exact lt_of_le_of_ne hle hne
  · simp only [update_runner_ladder]
    rw [List.length_take]
    omega
  · exact List.Pairwise.sublist (List.take_sublist 10 _)
      (List.sorted_insertionSort keyAsc _)
  · intro x hx
    simp only [update_runner_ladder] at hx
    have hx2 : x ∈ (dict_update rb.atl (list_ladder_to_dict rc.atl)).filter
        (fun e => decide (0 < e.2)) :=
      (List.mem_insertionSort keyAsc).mp (List.take_subset 10 _ hx)
    exact ⟨hx2, by simpa using (List.mem_filter.mp hx2).2⟩
  · intro x hxk hxn y hy
    simp only [update_runner_ladder] at hxn hy
    have hnd : (((dict_update rb.atl (list_ladder_to_dict rc.atl)).filter
        (fun e => decide (0 < e.2))).map Prod.fst).Nodup :=
      List.Nodup.sublist (List.Sublist.map Prod.fst (List.filter_sublist _))
        (dict_update_keys_nodup (list_ladder_to_dict rc.atl) rb.atl hatl)
    have hxs : x ∈ ((dict_update rb.atl (list_ladder_to_dict rc.atl)).filter
        (fun e => decide (0 < e.2))).insertionSort keyAsc :=
      (List.mem_insertionSort keyAsc).mpr hxk
    have hyk := (List.mem_insertionSort keyAsc).mp (List.take_subset 10 _ hy)
    have hle : keyAsc y x :=
      take_dominance (List.sorted_insertionSort keyAsc _) 10 x hxs hxn y hy
    have hne : y.1 ≠ x.1 := by
      intro heq
      have hinj := List.inj_on_of_nodup_map hnd
      have hxy : y = x := hinj hyk hxk heq
      rw [hxy] at hy
      exact hxn hy
    exact lt_of_le_of_ne hle hne
  · exact List.perm_insertionSort keyAsc _
  · exact List.sorted_insertionSort keyAsc _
  · intro x hx
    simp only [update_runner_ladder] at hx
    have hx2 := (List.mem_insertionSort keyAsc).mp hx
    simpa using (List.mem_filter.mp hx2).2

/-- C7: pre-in-play ladder capture.  With no in-play start nothing is ever
set.  With an in-play start, each field ends up as the runners of the first
snapshot in stream order whose `inPlayStartTime - pt` (milliseconds) is
strictly below its threshold (1 s, 5 min, 10 min) — under chronological
packets the earliest such snapshot, as the last conjuncts state — a field is
`none` exactly when no snapshot falls inside its window, and a field once
set never changes on later packets. -/
theorem C7_pre_ladder_capture (start : ℤ)
    (snaps : List (ℤ × List (ℕ × FormattedRunner)))
    (hmono : List.Pairwise (fun a b => a.1 ≤ b.1) snaps) :
    (run_pre_market none snaps = initPreMarketState) ∧
    ((run_pre_market (some start) snaps).pre0 =
      (snaps.find? (fun x => decide (start - x.1 < 1000))).map (fun x => x.2)) ∧
    ((run_pre_market (some start) snaps).pre5 =
      (snaps.find? (fun x => decide (start - x.1 < 300000))).map (fun x => x.2)) ∧
    ((run_pre_market (some start) snaps).pre10 =
      (snaps.find? (fun x => decide (start - x.1 < 600000))).map (fun x => x.2)) ∧
    ((run_pre_market (some start) snaps).pre0 = none ↔
      ∀ x ∈ snaps, ¬(start - x.1 < 1000)) ∧
    ((run_pre_market (some start) snaps).pre5 = none ↔
      ∀ x ∈ snaps, ¬(start - x.1 < 300000)) ∧
    ((run_pre_market (some start) snaps).pre10 = none ↔
      ∀ x ∈ snaps, ¬(start - x.1 < 600000)) ∧
    (∀ q, snaps.find? (fun x => decide (start - x.1 < 600000)) = some q →
      ∀ x ∈ snaps, start - x.1 < 600000 → q.1 ≤ x.1) ∧
    (∀ (st : PreMarketState) (v : List (ℕ × FormattedRunner))
        (more : List (ℤ × List (ℕ × FormattedRunner))),
      (st.pre0 = some v →
        (more.foldl (fun s t => extend_pre_market (some start) s t.2 t.1) st).pre0 = some v) ∧
      (st.pre5 = some v →
        (more.foldl (fun s t => extend_pre_market (some start) s t.2 t.1) st).pre5 = some v) ∧
      (st.pre10 = some v →
        (more.foldl (fun s t => extend_pre_market (some start) s t.2 t.1) st).pre10 = some v)) := by
  have hnone : ∀ (l : List (ℤ × List (ℕ × FormattedRunner))) (st : PreMarketState),
      l.foldl (fun s t => extend_pre_market none s t.2 t.1) st = st := by
    intro l
    induction l with
    | nil => intro st; rfl
    | cons x rest ih => intro st; rw [List.foldl_cons]; exact ih st
  obtain ⟨h0, h5, h10⟩ := pre_market_foldl_char start snaps initPreMarketState
  have h0' : (run_pre_market (some start) snaps).pre0 =
      (snaps.find? (fun x => decide (start - x.1 < 1000))).map (fun x => x.2) := h0
  have h5' : (run_pre_market (some start) snaps).pre5 =
      (snaps.find? (fun x => decide (start - x.1 < 300000))).map (fun x => x.2) := h5
  have h10' : (run_pre_market (some start) snaps).pre10 =
      (snaps.find? (fun x => decide (start - x.1 < 600000))).map (fun x => x.2) := h10
  refine ⟨hnone snaps initPreMarketState, h0', h5', h10', ?_, ?_, ?_, ?_, ?_⟩
  · rw [h0']
    simp [List.find?_eq_none]
  · rw [h5']
    simp [List.find?_eq_none]
  · rw [h10']
    simp [List.find?_eq_none]
  · intro q hq x hx hqx
    exact find?_first_min _ snaps hmono q hq x hx (by simpa using hqx)
  · intro st v more
    obtain ⟨g0, g5, g10⟩ := pre_market_foldl_char start more st
    refine ⟨?_, ?_, ?_⟩
    · intro hset
      rw [g0, hset]
    · intro hset
      rw [g5, hset]
    · intro hset
      rw [g10, hset]

/-- C7 witness: a market going in-play at `pt = 1000000` with snapshots at
`500001` (inside the 10-minute window only) and `999500` (inside all
windows), evaluated through the theorem. -/
theorem C7_pre_ladder_capture_witness :
    (run_pre_market (some 1000000)
      [(500001, []), (999500, [(7, ⟨[], [], [], none, none, none, []⟩)])]).pre10 =
        some [] ∧
    (run_pre_market (some 1000000)
      [(500001, []), (999500, [(7, ⟨[], [], [], none, none, none, []⟩)])]).pre0 =
        some [(7, ⟨[], [], [], none, none, none, []⟩)] := by
  have h := C7_pre_ladder_capture 1000000
    [(500001, []), (999500, [(7, ⟨[], [], [], none, none, none, []⟩)])] (by decide)
  constructor
  · rw [h.2.2.2.1]
    decide
  · rw [h.2.1]
    decide

/-- C5 witness: a concrete update through the theorem — a prior `atb` of
one level and an update that removes it and adds two others. -/
theorem C5_ladder_side_semantics_witness :
    List.Sorted keyDesc (update_runner_ladder
      ⟨[(3, 5)], [], [(2, 1)], [], none, none, 0, 0, none⟩
      ⟨1, [(3, 0), (2, 4), (5/2, 6)], [], [], none, none⟩ .atb) ∧
    (update_runner_ladder
      ⟨[(3, 5)], [], [(2, 1)], [], none, none, 0, 0, none⟩
      ⟨1, [(3, 0), (2, 4), (5/2, 6)], [], [], none, none⟩ .atb).length ≤ 10 := by
  have h := C5_ladder_side_semantics
    ⟨[(3, 5)], [], [(2, 1)], [], none, none, 0, 0, none⟩
    ⟨1, [(3, 0), (2, 4), (5/2, 6)], [], [], none, none⟩ (by decide) (by decide)
  exact ⟨h.1.2.1, h.1.1⟩

/-- C6: at every packet boundary — initially and after each successfully
processed packet — every runner's `bbp` is the greatest `atb` price (or 0
when empty) and its `blp` the least `atl` price (or `+∞`, i.e. `none`,
when empty): the per-packet re-scan recomputes both from the formatted
snapshot and the values are carried into the next packet. -/
theorem C6_best_price_invariant (roster : List ℕ) (mcs : List MarketChange)
    (bs : Books) (h : run_books (create_ladder_ds roster) mcs = some bs) :
    (∀ e ∈ create_ladder_ds roster,
      e.2.bbp = bbp_spec e.2.atb ∧ e.2.blp = blp_spec e.2.atl) ∧
    (∀ e ∈ bs, e.2.bbp = bbp_spec e.2.atb ∧ e.2.blp = blp_spec e.2.atl) :=
  ⟨(create_ladder_ds_inv roster).2.2,
   (run_books_inv mcs (create_ladder_ds roster) bs (create_ladder_ds_inv roster) h).2.2⟩

/-- C6 witness: one concrete packet on a one-runner market, evaluated
through the theorem — the recomputed best prices match the spec values. -/
theorem C6_best_price_invariant_witness :
    (⟨[(3, 5), (2, 4)], [(7, 2)], [(5/2, 10)], [], some (5/2), none, 10, 3, some 7⟩
        : RunnerBook).bbp = bbp_spec [(3, 5), (2, 4)] ∧
    (⟨[(3, 5), (2, 4)], [(7, 2)], [(5/2, 10)], [], some (5/2), none, 10, 3, some 7⟩
        : RunnerBook).blp = blp_spec [(7, 2)] :=
  (C6_best_price_invariant [1]
    [⟨some "1.1", some [⟨1, [(3, 5), (2, 4)], [(7, 2)], [(5/2, 10)], some (5/2), none⟩], none⟩]
    [(1, ⟨[(3, 5), (2, 4)], [(7, 2)], [(5/2, 10)], [], some (5/2), none, 10, 3, some 7⟩)]
    (by decide)).2
    (1, ⟨[(3, 5), (2, 4)], [(7, 2)], [(5/2, 10)], [], some (5/2), none, 10, 3, some 7⟩)
    (by decide)

/-- C4 counterexample: the per-packet re-scan is not dead.  From the
initial one-runner book, a single packet posting back volume at 3 and lay
volume at 2 yields a formatted snapshot on which `check_arbitrage` returns
`True` for that runner (the snapshot stores `atb`/`atl` as best-first lists
of pairs, so `atb[0][0]` is the best back price), while the packet still
processes successfully because `raise_if_arbitrage` suppresses the raise. -/
theorem C4_dead_check_counterexample :
    (update_ladder (create_ladder_ds [1])
        ⟨some "1.1", some [⟨1, [(3, 5)], [(2, 5)], [], none, none⟩], none⟩).map
      (fun bs => (format_ladder bs).map (fun e => (check_arbitrage e.2).2.2)) =
      some [true] ∧
    (run_books (create_ladder_ds [1])
        [⟨some "1.1", some [⟨1, [(3, 5)], [(2, 5)], [], none, none⟩], none⟩]).isSome =
      true := by
  decide

/-- C4 amended: `check_arbitrage` runs on the formatted snapshot, where
`atb`/`atl` are best-first lists of pairs, so `atb[0][0]` is well defined
and the check is live: for a runner with sorted sides it returns `True`
exactly when the least lay price undercuts the greatest back price, and the
`bbp`/`blp` it stores back are those best prices.  `raise_if_arbitrage`
still never raises — the raise in its body is commented out, which the
model reflects by returning the updated books totally. -/
theorem C4_arbitrage_check_live (rb : RunnerBook)
    (hd : List.Sorted keyDesc rb.atb) (ha : List.Sorted keyAsc rb.atl) :
    ((check_arbitrage (format_runner rb)).2.2 = true ↔
      ∃ b, blp_spec rb.atl = some b ∧ b < bbp_spec rb.atb) ∧
    (check_arbitrage (format_runner rb)).1 = bbp_spec rb.atb ∧
    (check_arbitrage (format_runner rb)).2.1 = blp_spec rb.atl := by
  obtain ⟨h1, h2, h3⟩ := check_arbitrage_formatted rb hd ha
  exact ⟨h3, h1, h2⟩

/-- C4 amended witness: the crossed one-runner book through the theorem. -/
theorem C4_arbitrage_check_live_witness :
    (check_arbitrage (format_runner
      ⟨[(3, 5)], [(2, 5)], [], [], none, none, 0, 0, none⟩)).2.2 = true :=
  (C4_arbitrage_check_live ⟨[(3, 5)], [(2, 5)], [], [], none, none, 0, 0, none⟩
    (by decide) (by decide)).1.mpr ⟨2, by decide, by decide⟩

/-- C10: building the metadata base (done at pipeline construction, from
the last packet's `mc[0]`, before any packet is processed) succeeds exactly
when that market change carries an `id` and a `marketDefinition` with an
`eventId` and the three date strings `openDate`, `marketTime`,
`suspendTime` each parsing under `%Y-%m-%dT%H:%M:%S.%fZ`; any missing or
malformed piece raises and fails the whole file.  On success the record has
`marketId = id`, the `eventId`, the parsed datetimes, and
`_id = "metadata_<marketId>_<eventId>"`. -/
theorem C10_metadata_base_spec (mc : MarketChange) :
    ((∃ r, format_metadata mc = .ok r) ↔
      ((∃ mid, mc.id = some mid) ∧
       (∃ md, mc.marketDefinition = some md ∧
         (∃ eid, md.eventId = some eid) ∧
         (∃ s1, md.openDate = some s1 ∧ (strptime_iso s1).isSome) ∧
         (∃ s2, md.marketTime = some s2 ∧ (strptime_iso s2).isSome) ∧
         (∃ s3, md.suspendTime = some s3 ∧ (strptime_iso s3).isSome)))) ∧
    (∀ r, format_metadata mc = .ok r →
      mc.id = some r.marketId ∧
      (∃ md, mc.marketDefinition = some md ∧
        md.eventId = some r.eventId ∧
        (∃ s1, md.openDate = some s1 ∧
          strptime_iso s1 = some r.marketDefinition.openDate) ∧
        (∃ s2, md.marketTime = some s2 ∧
          strptime_iso s2 = some r.marketDefinition.marketTime) ∧
        (∃ s3, md.suspendTime = some s3 ∧
          strptime_iso s3 = some r.marketDefinition.suspendTime) ∧
        r.marketDefinition.eventId = r.eventId ∧
        r.marketDefinition.runners = md.runners) ∧
      r.mongo_id = "metadata_" ++ r.marketId ++ "_" ++ r.eventId) ∧
    (∀ (marketdata : List Packet) (last : Packet) (l : List MarketChange),
      marketdata.getLast? = some last → last.mc = some l → l.head? = some mc →
      metadata_base marketdata = format_metadata mc) := by
  have hbase : ∀ (marketdata : List Packet) (last : Packet) (l : List MarketChange),
      marketdata.getLast? = some last → last.mc = some l → l.head? = some mc →
      metadata_base marketdata = format_metadata mc := by
    intro marketdata last l h1 h2 h3
    simp [metadata_base, h1, h2, h3]
  rcases mc with ⟨idf, rcf, mdf⟩
  cases idf with
  | none =>
    refine ⟨⟨?_, ?_⟩, ?_, hbase⟩
    · rintro ⟨r, hr⟩
      simp [format_metadata] at hr
    · rintro ⟨⟨mid, hmid⟩, _⟩
      simp at hmid
    · intro r hr
      simp [format_metadata] at hr
  | some mid =>
    cases mdf with
    | none =>
      refine ⟨⟨?_, ?_⟩, ?_, hbase⟩
      · rintro ⟨r, hr⟩
        simp [format_metadata] at hr
      · rintro ⟨_, ⟨md, hmd, _⟩⟩
        simp at hmd
      · intro r hr
        simp [format_metadata] at hr
    | some md =>
      rcases md with ⟨eidf, odf, mtf, stf, runs⟩
      cases eidf with
      | none =>
        refine ⟨⟨?_, ?_⟩, ?_, hbase⟩
        · rintro ⟨r, hr⟩
          simp [format_metadata] at hr
        · rintro ⟨_, ⟨md, hmd, ⟨eid, heid⟩, _⟩⟩
          simp only [Option.some.injEq] at hmd
          rw [← hmd] at heid
          simp at heid
        · intro r hr
          simp [format_metadata] at hr
      | some eid =>
        cases odf with
        | none =>
          refine ⟨⟨?_, ?_⟩, ?_, hbase⟩
          · rintro ⟨r, hr⟩
            simp [format_metadata] at hr
          · rintro ⟨_, ⟨md, hmd, _, ⟨s1, hs1, _⟩, _⟩⟩
            simp only [Option.some.injEq] at hmd
            rw [← hmd] at hs1
            simp at hs1
          · intro r hr
            simp [format_metadata] at hr
        | some ods =>
          cases hod : strptime_iso ods with
          | none =>
            refine ⟨⟨?_, ?_⟩, ?_, hbase⟩
            · rintro ⟨r, hr⟩
              simp [format_metadata, hod] at hr
            · rintro ⟨_, ⟨md, hmd, _, ⟨s1, hs1, hp1⟩, _⟩⟩
              simp only [Option.some.injEq] at hmd
              rw [← hmd] at hs1
              simp only [Option.some.injEq] at hs1
              rw [← hs1, hod] at hp1
              simp at hp1
            · intro r hr
              simp [format_metadata, hod] at hr
          | some odv =>
            cases mtf with
            | none =>
              refine ⟨⟨?_, ?_⟩, ?_, hbase⟩
              · rintro ⟨r, hr⟩
                simp [format_metadata, hod] at hr
              · rintro ⟨_, ⟨md, hmd, _, _, ⟨s2, hs2, _⟩, _⟩⟩
                simp only [Option.some.injEq] at hmd
                rw [← hmd] at hs2
                simp at hs2
              · intro r hr
                simp [format_metadata, hod] at hr
            | some mts =>
              cases hmt : strptime_iso mts with
              | none =>
                refine ⟨⟨?_, ?_⟩, ?_, hbase⟩
                · rintro ⟨r, hr⟩
                  simp [format_metadata, hod, hmt] at hr
                · rintro ⟨_, ⟨md, hmd, _, _, ⟨s2, hs2, hp2⟩, _⟩⟩
                  simp only [Option.some.injEq] at hmd
                  rw [← hmd] at hs2
                  simp only [Option.some.injEq] at hs2
                  rw [← hs2, hmt] at hp2
                  simp at hp2
                · intro r hr
                  simp [format_metadata, hod, hmt] at hr
              | some mtv =>
                cases stf with
                | none =>
                  refine ⟨⟨?_, ?_⟩, ?_, hbase⟩
                  · rintro ⟨r, hr⟩
                    simp [format_metadata, hod, hmt] at hr
                  · rintro ⟨_, ⟨md, hmd, _, _, _, ⟨s3, hs3, _⟩⟩⟩
                    simp only [Option.some.injEq] at hmd
                    rw [← hmd] at hs3
                    simp at hs3
                  · intro r hr
                    simp [format_metadata, hod, hmt] at hr
                | some sts =>
                  cases hst : strptime_iso sts with
                  | none =>
                    refine ⟨⟨?_, ?_⟩, ?_, hbase⟩
                    · rintro ⟨r, hr⟩
                      simp [format_metadata, hod, hmt, hst] at hr
                    · rintro ⟨_, ⟨md, hmd, _, _, _, ⟨s3, hs3, hp3⟩⟩⟩
                      simp only [Option.some.injEq] at hmd
                      rw [← hmd] at hs3
                      simp only [Option.some.injEq] at hs3
                      rw [← hs3, hst] at hp3
                      simp at hp3
                    · intro r hr
                      simp [format_metadata, hod, hmt, hst] at hr
                  | some stv =>
                    refine ⟨⟨?_, ?_⟩, ?_, hbase⟩
                    · intro _
                      refine ⟨⟨mid, rfl⟩, ⟨some eid, some ods, some mts, some sts, runs⟩, rfl,
                        ⟨eid, rfl⟩, ⟨ods, rfl, by rw [hod]; rfl⟩,
                        ⟨mts, rfl, by rw [hmt]; rfl⟩, ⟨sts, rfl, by rw [hst]; rfl⟩⟩
                    · intro _
                      exact ⟨⟨mid, eid, "metadata_" ++ mid ++ "_" ++ eid,
                        ⟨eid, odv, mtv, stv, runs⟩⟩, by simp [format_metadata, hod, hmt, hst]⟩
                    · intro r hr
                      simp only [format_metadata, hod, hmt, hst] at hr
                      rw [Except.ok.injEq] at hr
                      rw [← hr]
                      refine ⟨rfl, ⟨⟨some eid, some ods, some mts, some sts, runs⟩, rfl,
                        rfl, ⟨ods, rfl, hod⟩, ⟨mts, rfl, hmt⟩, ⟨sts, rfl, hst⟩, rfl, rfl⟩, rfl⟩

/-- C10 witness: a well-formed last market change decodes through the
theorem. -/
theorem C10_metadata_base_spec_witness :
    ∃ r, format_metadata ⟨some "1.22", none,
        some ⟨some "ev9", some "2023-01-03T14:30:00.0Z", some "2023-01-03T14:35:00.0Z",
          some "2023-01-03T14:40:00.0Z", []⟩⟩ = .ok r :=
  (C10_metadata_base_spec ⟨some "1.22", none,
      some ⟨some "ev9", some "2023-01-03T14:30:00.0Z", some "2023-01-03T14:35:00.0Z",
        some "2023-01-03T14:40:00.0Z", []⟩⟩).1.mpr
    ⟨⟨"1.22", rfl⟩, ⟨some "ev9", some "2023-01-03T14:30:00.0Z", some "2023-01-03T14:35:00.0Z",
        some "2023-01-03T14:40:00.0Z", []⟩, rfl, ⟨"ev9", rfl⟩,
      ⟨"2023-01-03T14:30:00.0Z", rfl, by decide⟩,
      ⟨"2023-01-03T14:35:00.0Z", rfl, by decide⟩,
      ⟨"2023-01-03T14:40:00.0Z", rfl, by decide⟩⟩
